import Mathlib

/-!
Shallow embedding of the ingredient-amount parsing and consolidation utilities
of app.py (parse_amount, to_tbsp, frac_to_mixed_string, format_tbsp_total,
consolidate_entries) and proofs about them.

Modelling conventions: Python strings are lists of characters; Python
fractions.Fraction is the exact rational type; operations that can raise in
Python (Fraction / float construction from a string) are modelled with Option
results, mirroring the try/except blocks of the source.  Character classes of
the regular expressions (digits, whitespace, word characters) are modelled on
their ASCII fragment, which is the fragment the alias tables and markers of
the source live in.
-/

namespace Paprika

attribute [local semireducible] Rat.add Rat.mul Rat.sub Rat.inv Rat.ofScientific

/-- Python strings, modelled as lists of characters. -/
abbrev Str := List Char

/-- Characters stripped by python str.strip() and matched by the regex class
of whitespace (ASCII fragment). -/
def isSpc (c : Char) : Bool :=
  c = ' ' || c = '\t' || c = '\n' || c = '\r' || c = '\x0b' || c = '\x0c'

/-- Model of python str.strip(): drop leading and trailing whitespace. -/
def strip (s : Str) : Str :=
  ((s.dropWhile isSpc).reverse.dropWhile isSpc).reverse

/-- Model of python str.lower(), character by character (Char.toLower lowers
exactly the ASCII range A-Z). -/
def lowerStr (s : Str) : Str := s.map Char.toLower

/-- Model of python str.replace(k, v): replace all non-overlapping occurrences
of k left to right (the source only calls it with non-empty k).  The fuel
argument only drives structural recursion: at least one character of the
string is consumed per unit, so the string's length is always enough. -/
def replaceAllAux (k v : Str) : Nat → Str → Str
  | _, [] => []
  | 0, s => s
  | fuel + 1, c :: rest =>
    if k ≠ [] ∧ k.isPrefixOf (c :: rest) then
      v ++ replaceAllAux k v fuel ((c :: rest).drop k.length)
    else
      c :: replaceAllAux k v fuel rest

/-- python s.replace(k, v). -/
def replaceAll (k v s : Str) : Str := replaceAllAux k v s.length s

/-- UNICODE_FRAC_MAP from app.py, keys exactly as the source file's bytes
decode (each key is a two- or three-character mojibake sequence). -/
def UNICODE_FRAC_MAP : List (Str × Str) :=
  [("Â½".data, "1/2".data), ("Â¼".data, "1/4".data),
   ("Â¾".data, "3/4".data), ("â…“".data, "1/3".data),
   ("â…”".data, "2/3".data), ("â…›".data, "1/8".data)]

/-- replace_unicode_fractions from app.py: apply the replacements in the
insertion order of the dict. -/
def replace_unicode_fractions (s : Str) : Str :=
  UNICODE_FRAC_MAP.foldl (fun t kv => replaceAll kv.1 kv.2 t) s

/-- UNIT_ALIASES from app.py. -/
def UNIT_ALIASES : List (Str × Str) :=
  [("cups".data, "cup".data), ("cup".data, "cup".data), ("c".data, "cup".data),
   ("tablespoons".data, "tbsp".data), ("tablespoon".data, "tbsp".data),
   ("tbsp".data, "tbsp".data), ("tbsp.".data, "tbsp".data), ("tbs".data, "tbsp".data),
   ("teaspoons".data, "tsp".data), ("teaspoon".data, "tsp".data),
   ("tsp".data, "tsp".data), ("tsp.".data, "tsp".data),
   ("ounces".data, "oz".data), ("ounce".data, "oz".data), ("oz".data, "oz".data),
   ("grams".data, "g".data), ("gram".data, "g".data), ("g".data, "g".data),
   ("kilograms".data, "kg".data), ("kg".data, "kg".data),
   ("milliliters".data, "ml".data), ("ml".data, "ml".data),
   ("liters".data, "l".data), ("l".data, "l".data),
   ("large".data, "large".data), ("small".data, "small".data),
   ("can".data, "can".data), ("cans".data, "can".data),
   ("slice".data, "slice".data), ("slices".data, "slice".data),
   ("clove".data, "clove".data), ("cloves".data, "clove".data),
   ("pinch".data, "pinch".data), ("package".data, "package".data),
   ("packages".data, "package".data)]

/-- dict.get(k, k): first matching key wins (dict keys are unique). -/
def aliasGet : List (Str × Str) → Str → Str
  | [], k => k
  | kv :: rest, k => if kv.1 = k then kv.2 else aliasGet rest k

/-- CONVERTIBLE_TO_TBSP from app.py. -/
def CONVERTIBLE_TO_TBSP : List Str := ["cup".data, "tbsp".data, "tsp".data]

/-- Python substring containment, the operator used by the marker check. -/
def isSubstr (k : Str) : Str → Bool
  | [] => k.isPrefixOf []
  | c :: rest => k.isPrefixOf (c :: rest) || isSubstr k rest

/-- The non-quantitative markers of parse_amount, in source order. -/
def MARKERS : List Str :=
  [("to taste").data, ("as needed").data, ("optional").data, ("for serving").data]

/-- any(kw in s for kw in ("to taste", "as needed", "optional", "for serving")). -/
def containsMarker (s : Str) : Bool := MARKERS.any (fun kw => isSubstr kw s)

/-- Value of a run of decimal digit characters. -/
def natOfDigits (s : Str) : Nat := s.foldl (fun n c => 10 * n + (c.toNat - 48)) 0

/-- The three alternatives of the leading-number pattern of parse_amount
(mixed number, simple fraction, decimal/integer), keeping the digit runs. -/
inductive NumLit where
  | mixed (a b c : Str)
  | frac (n d : Str)
  | dec (i f : Str)
deriving DecidableEq

/-- re.match of the leading-number pattern: ordered alternation
mixed-number, fraction, decimal, each with greedy digit/space runs (the
character classes are disjoint, so greedy maximal munch is exact), followed by
a capture of the tail.  The tail capture cannot cross a newline; since the
input is stripped a newline can never be the final character, so the match
fails exactly when the tail contains a newline (shrinking the literal only
grows the tail, so backtracking cannot recover).  Returns the literal and the
tail (group 3). -/
def matchNumber (s : Str) : Option (NumLit × Str) :=
  let d1 := s.takeWhile Char.isDigit
  let r1 := s.dropWhile Char.isDigit
  if d1 = [] then none
  else
    let w := r1.takeWhile isSpc
    let r2 := r1.dropWhile isSpc
    let d2 := r2.takeWhile Char.isDigit
    let r3 := r2.dropWhile Char.isDigit
    let core : NumLit × Str :=
      if w ≠ [] ∧ d2 ≠ [] ∧ r3.head? = some '/' ∧ (r3.tail.takeWhile Char.isDigit) ≠ [] then
        (NumLit.mixed d1 d2 (r3.tail.takeWhile Char.isDigit), r3.tail.dropWhile Char.isDigit)
      else if r1.head? = some '/' ∧ (r1.tail.takeWhile Char.isDigit) ≠ [] then
        (NumLit.frac d1 (r1.tail.takeWhile Char.isDigit), r1.tail.dropWhile Char.isDigit)
      else if r1.head? = some '.' ∧ (r1.tail.takeWhile Char.isDigit) ≠ [] then
        (NumLit.dec d1 (r1.tail.takeWhile Char.isDigit), r1.tail.dropWhile Char.isDigit)
      else
        (NumLit.dec d1 [], r1)
    if ('\n') ∈ core.2 then none else some core

/-- qty = Fraction(num_str) under try/except, with the Fraction(float(num_str))
fallback of the source.  Python's Fraction constructor raises ValueError on an
embedded space (so every mixed-number literal fails) and ZeroDivisionError on a
zero denominator; float() rejects both shapes as well, so in every failing case
the fallback also fails and qty becomes None. -/
def litToQty : NumLit → Option ℚ
  | NumLit.mixed _ _ _ => none
  | NumLit.frac n d =>
      if natOfDigits d = 0 then none
      else some ((natOfDigits n : ℚ) / (natOfDigits d : ℚ))
  | NumLit.dec i f =>
      some ((natOfDigits i : ℚ) + (natOfDigits f : ℚ) / ((10 : ℚ) ^ f.length))

/-- The character class of the unit-candidate token (no whitespace, comma,
semicolon or parenthesis). -/
def unitChar (c : Char) : Bool :=
  !(isSpc c) && c ≠ ',' && c ≠ ';' && c ≠ '(' && c ≠ ')'

/-- Skip the maximal leading run of parenthetical-descriptor groups
(an opening parenthesis, anything up to the next closing one, then spaces),
as the unit-candidate pattern does before its capture.  The fuel argument only
drives structural recursion: every recursive step consumes at least two
characters, so the string's length is always enough. -/
def skipParenGroupsAux : Nat → Str → Str
  | _, [] => []
  | 0, s => s
  | fuel + 1, c :: rest =>
    if c = '(' ∧ (rest.dropWhile (fun x => x ≠ ')')) ≠ [] then
      skipParenGroupsAux fuel (((rest.dropWhile (fun x => x ≠ ')')).tail).dropWhile isSpc)
    else c :: rest

/-- The paren-group skipping pass of the unit-candidate pattern. -/
def skipParenGroups (r : Str) : Str := skipParenGroupsAux r.length r

/-- Unit-candidate extraction of parse_amount: the capture of the token after
any parenthetical groups, right-stripped of periods and commas, then looked up
in UNIT_ALIASES with itself as the default; an empty candidate gives None. -/
def extractUnit (rest : Str) : Option Str :=
  let t0 := (skipParenGroups rest).takeWhile unitChar
  let t := (t0.reverse.dropWhile (fun c => c = '.' || c = ',')).reverse
  if t = [] then none else some (aliasGet UNIT_ALIASES t)

/-- WORD_TO_INT of parse_amount, in the order of the alternation of its
word-number pattern. -/
def WORD_NUMBERS : List (Str × Nat) :=
  [("one".data, 1), ("two".data, 2), ("three".data, 3), ("four".data, 4),
   ("five".data, 5), ("six".data, 6), ("seven".data, 7), ("eight".data, 8),
   ("nine".data, 9), ("ten".data, 10)]

/-- Word characters for the word-boundary check (ASCII fragment). -/
def isWordChar (c : Char) : Bool := c.isAlphanum || c = '_'

/-- re.match of the word-number pattern: the first number word that is a
prefix of s and is followed by a non-word character or the end of the string
(no two of the words are prefixes of one another); as with the numeric
pattern, the tail capture fails when the tail contains a newline. -/
def matchWordNum (s : Str) : Option (Nat × Str) :=
  match WORD_NUMBERS.find? (fun wn => wn.1.isPrefixOf s &&
      ((s.drop wn.1.length).isEmpty || !(isWordChar ((s.drop wn.1.length).headD ' ')))) with
  | none => none
  | some wn =>
      let rest := s.drop wn.1.length
      if ('\n') ∈ rest then none else some (wn.2, rest)

/-- The normalization pipeline at the top of parse_amount:
strip, replace_unicode_fractions, lower, strip. -/
def canon (a : Str) : Str :=
  strip (lowerStr (replace_unicode_fractions (strip a)))

/-- parse_amount from app.py, returning (qty, unit, raw_rest). -/
def parse_amount (amount_str : Str) : Option ℚ × Option Str × Str :=
  if amount_str = [] then (none, none, [])
  else
    let s := canon amount_str
    if s = [] ∨ containsMarker s = true then (none, none, s)
    else
      match matchNumber s with
      | some lr =>
          let rest := strip lr.2
          (litToQty lr.1, extractUnit rest, rest)
      | none =>
          match matchWordNum s with
          | some qr =>
              let rest := strip qr.2
              (some (qr.1 : ℚ), extractUnit rest, rest)
          | none => (none, none, s)

/-- to_tbsp from app.py: convert a quantity in a volume unit to tablespoons
when possible (1 cup = 16 tbsp, 1 tsp = 1/3 tbsp), else None. -/
def to_tbsp (qty : Option ℚ) (unit : Str) : Option ℚ :=
  match qty with
  | none => none
  | some q =>
    if unit = [] then none
    else
      let u := lowerStr unit
      if u = "cup".data then some (q * 16)
      else if u = "tbsp".data then some q
      else if u = "tsp".data then some (q / 3)
      else none

/-- str(Fraction) for a nonnegative rational: the numerator alone when the
denominator is one, else numerator/denominator (a Fraction is always stored in
lowest terms, as a normalized rational is). -/
def fracRepr (q : ℚ) : Str :=
  if q.den = 1 then (Nat.repr q.num.toNat).data
  else (Nat.repr q.num.toNat).data ++ '/' :: (Nat.repr q.den).data

/-- frac_to_mixed_string from app.py. -/
def frac_to_mixed_string (fr : ℚ) : Str :=
  if fr = 0 then "0".data
  else
    let sign : Str := if fr < 0 then "-".data else []
    let a := |fr|
    let whole : Nat := a.num.toNat / a.den
    let remainder : ℚ := a - (whole : ℚ)
    if whole ≠ 0 ∧ remainder ≠ 0 then
      sign ++ (Nat.repr whole).data ++ ' ' :: fracRepr remainder
    else if whole ≠ 0 then sign ++ (Nat.repr whole).data
    else sign ++ fracRepr remainder

/-- format_tbsp_total from app.py. -/
def format_tbsp_total (total_tbsp : ℚ) : Str :=
  if total_tbsp ≥ 16 then frac_to_mixed_string (total_tbsp / 16) ++ (" cup").data
  else if total_tbsp ≥ 1 then frac_to_mixed_string total_tbsp ++ (" tbsp").data
  else frac_to_mixed_string (total_tbsp * 3) ++ (" tsp").data

/-- One entry handed to consolidate_entries: the dict
{'raw': amount string, 'qty': Fraction or None, 'unit': string or None}
(e.get("raw") or "" is the identity on the string raw values the app builds,
an absent/None raw being the empty string). -/
structure Entry where
  raw : Str
  qty : Option ℚ
  unit : Option Str
deriving DecidableEq

/-- unit in CONVERTIBLE_TO_TBSP (None belongs to no set of strings). -/
def isConvertible : Option Str → Bool
  | some u => decide (u ∈ CONVERTIBLE_TO_TBSP)
  | none => false

/-- Python truthiness of the optional unit string. -/
def unitTruthy : Option Str → Bool
  | some u => u ≠ []
  | none => false

/-- The three accumulators of the loop in consolidate_entries:
convertible_totals, same_unit_group (insertion-ordered), raw_ones. -/
structure Acc where
  conv : List ℚ
  groups : List (Str × ℚ)
  raws : List Str
deriving DecidableEq

/-- defaultdict update same_unit_group[unit] += qty: add into the entry with
that key, else append a fresh one (insertion order is preserved). -/
def addGroup : List (Str × ℚ) → Str → ℚ → List (Str × ℚ)
  | [], u, q => [(u, q)]
  | p :: rest, u, q =>
      if p.1 = u then (p.1, p.2 + q) :: rest else p :: addGroup rest u q

/-- One iteration of the for-loop of consolidate_entries: route the entry to
convertible_totals, same_unit_group, or raw_ones (in the convertible branch, a
failed conversion falls back to raw_ones, guarding with to_tbsp's result). -/
def step (acc : Acc) (e : Entry) : Acc :=
  if e.qty.isSome = true ∧ isConvertible e.unit = true then
    match to_tbsp e.qty (e.unit.getD []) with
    | some tb => ⟨acc.conv ++ [tb], acc.groups, acc.raws⟩
    | none => ⟨acc.conv, acc.groups, acc.raws ++ [e.raw]⟩
  else if e.qty.isSome = true ∧ unitTruthy e.unit = true then
    ⟨acc.conv, addGroup acc.groups (e.unit.getD []) (e.qty.getD 0), acc.raws⟩
  else
    ⟨acc.conv, acc.groups, acc.raws ++ [e.raw]⟩

/-- The dedup loop over raw_ones: keep each non-empty string's first
occurrence. -/
def dedupRaws (rs : List Str) : List Str :=
  rs.foldl (fun u r => if r ≠ [] ∧ r ∉ u then u ++ [r] else u) []

/-- " + ".join(parts). -/
def joinPlus (parts : List Str) : Str := List.intercalate ((" + ").data) parts

/-- consolidate_entries from app.py: run the routing loop, then assemble the
volume term, the same-unit terms, and the deduplicated raw fallback term, all
joined by " + " (the empty string when no part was produced). -/
def consolidate_entries (entries : List Entry) : Str :=
  let acc := entries.foldl step ⟨[], [], []⟩
  let parts1 : List Str :=
    if acc.conv ≠ [] then
      [format_tbsp_total (acc.conv.foldl (fun a b => a + b) 0)]
    else []
  let parts2 : List Str := acc.groups.map (fun p => frac_to_mixed_string p.2 ++ ' ' :: p.1)
  let parts3 : List Str :=
    if acc.raws ≠ [] then
      (if dedupRaws acc.raws ≠ [] then [joinPlus (dedupRaws acc.raws)] else [])
    else []
  joinPlus (parts1 ++ parts2 ++ parts3)

/-- The guard of the first branch of the loop of consolidate_entries:
present quantity and volume-convertible unit. -/
def convCond (e : Entry) : Bool := e.qty.isSome && isConvertible e.unit

/-- The guard of the elif branch: not the first branch, with a present
quantity and a truthy unit. -/
def groupCond (e : Entry) : Bool :=
  !(convCond e) && (e.qty.isSome && unitTruthy e.unit)

/-- The entries that reach the else branch and contribute to raw_ones. -/
def rawCond (e : Entry) : Bool :=
  !(convCond e) && !(e.qty.isSome && unitTruthy e.unit)

/-- The tablespoon value of a convertible entry. -/
def tbVal (e : Entry) : ℚ := (to_tbsp e.qty (e.unit.getD [])).getD 0

/-- The tablespoon-equivalent total accumulated by consolidate_entries. -/
def tbspTotalOf (entries : List Entry) : ℚ :=
  ((entries.foldl step ⟨[], [], []⟩).conv).foldl (fun a b => a + b) 0

/-- The (unit, qty) pairs of the entries routed to same_unit_group, in
encounter order. -/
def groupPairs (entries : List Entry) : List (Str × ℚ) :=
  (entries.filter groupCond).map (fun e => (e.unit.getD [], e.qty.getD 0))

/-!  Specification-side definitions, following the words of the spec's output
assembly description (one volume term; one term per distinct non-convertible
unit in encounter order, each with the sum over all matching entries; one term
of deduplicated raw strings), used to state the assembly-order claim as a
refinement of consolidate_entries.  -/

/-- The distinct keys of a pair list, in encounter order (first occurrences). -/
def dedupKeys : List (Str × ℚ) → List Str
  | [] => []
  | p :: rest => p.1 :: dedupKeys (rest.filter (fun q => q.1 ≠ p.1))
termination_by ps => ps.length
decreasing_by
  have := (List.filter_sublist (l := rest) (p := fun q => q.1 ≠ p.1)).length_le
  simp only [List.length_cons]
  omega

/-- The sum of the quantities carried by the pairs with the given unit. -/
def sumForUnit (u : Str) (ps : List (Str × ℚ)) : ℚ :=
  ((ps.filter (fun p => p.1 = u)).map Prod.snd).sum

/-- First-occurrence deduplication of the non-empty strings of a list. -/
def specDedup : List Str → List Str
  | [] => []
  | r :: rest =>
      if r = [] then specDedup rest
      else r :: specDedup (rest.filter (fun x => x ≠ r))
termination_by rs => rs.length
decreasing_by
  · simp only [List.length_cons]; omega
  · have := (List.filter_sublist (l := rest) (p := fun x => x ≠ r)).length_le
    simp only [List.length_cons]
    omega

/-- Spec-side volume group: the tablespoon total over the convertible
entries. -/
def specVolumeTotal (entries : List Entry) : ℚ :=
  ((entries.filter convCond).map tbVal).sum

/-- Spec-side term (a): one formatted volume term when the convertible
group is non-empty. -/
def specVolumePart (entries : List Entry) : List Str :=
  if entries.filter convCond ≠ [] then [format_tbsp_total (specVolumeTotal entries)]
  else []

/-- Spec-side terms (b): one formatted term per distinct non-convertible unit
in encounter order, each carrying the sum over all entries with that unit. -/
def specUnitParts (entries : List Entry) : List Str :=
  (dedupKeys (groupPairs entries)).map
    (fun u => frac_to_mixed_string (sumForUnit u (groupPairs entries)) ++ ' ' :: u)

/-- Spec-side term (c): the deduplicated non-empty raw strings of the
fallback group, joined by " + ", when any exist. -/
def specRawPart (entries : List Entry) : List Str :=
  if specDedup ((entries.filter rawCond).map Entry.raw) ≠ [] then
    [joinPlus (specDedup ((entries.filter rawCond).map Entry.raw))]
  else []

/-- Spec-side assembly: terms (a), (b), (c) in this fixed order, joined by
" + " (the empty string when no term was produced). -/
def specAssemble (entries : List Entry) : Str :=
  joinPlus (specVolumePart entries ++ specUnitParts entries ++ specRawPart entries)

/-- A string already in lower case: every character is fixed by toLower. -/
def IsLowerStr (s : Str) : Prop := ∀ c ∈ s, c.toLower = c

instance (s : Str) : Decidable (IsLowerStr s) := List.decidableBAll _ s

/-!  Theorems about the claims.  -/

/-- Char.ofNat of a valid scalar value round-trips through toNat. -/
theorem toNat_ofNat_of_valid {n : Nat} (h : n.isValidChar) :
    (Char.ofNat n).toNat = n := by
  rw [Char.ofNat, dif_pos h]
  rfl

/-- A character outside the upper-case ASCII range is fixed by toLower. -/
theorem toLower_of_not_upper (c : Char) (h : ¬(c.toNat ≥ 65 ∧ c.toNat ≤ 90)) :
    c.toLower = c := by
  simp only [Char.toLower]
  rw [if_neg h]

/-- toLower never produces an upper-case ASCII character. -/
theorem toLower_not_upper (c : Char) :
    ¬(c.toLower.toNat ≥ 65 ∧ c.toLower.toNat ≤ 90) := by
  simp only [Char.toLower]
  by_cases h : c.toNat ≥ 65 ∧ c.toNat ≤ 90
  · rw [if_pos h]
    rw [toNat_ofNat_of_valid (Or.inl (by omega))]
    omega
  · rw [if_neg h]
    exact h

/-- toLower is idempotent. -/
theorem toLower_toLower (c : Char) : c.toLower.toLower = c.toLower :=
  toLower_of_not_upper _ (toLower_not_upper c)

/-- A lower-case string stays itself under lowerStr. -/
theorem lowerStr_eq_of_isLower {s : Str} (h : IsLowerStr s) : lowerStr s = s :=
  (List.map_congr_left h).trans (List.map_id s)

/-- Characters of a stripped string come from the string. -/
theorem strip_subset (s : Str) : ∀ c ∈ strip s, c ∈ s := by
  intro c hc
  rw [strip, List.mem_reverse] at hc
  have hc2 := (List.dropWhile_sublist isSpc).subset hc
  rw [List.mem_reverse] at hc2
  exact (List.dropWhile_sublist isSpc).subset hc2

/-- The tail returned by the leading-number match is part of the input. -/
theorem matchNumber_rest_subset (s : Str) (lr : NumLit × Str)
    (h : matchNumber s = some lr) : ∀ c ∈ lr.2, c ∈ s := by
  have h1 : List.Sublist (s.dropWhile Char.isDigit) s := List.dropWhile_sublist _
  have h2 : List.Sublist ((s.dropWhile Char.isDigit).dropWhile isSpc) s :=
    (List.dropWhile_sublist _).trans h1
  have h3 : List.Sublist (((s.dropWhile Char.isDigit).dropWhile isSpc).dropWhile
      Char.isDigit) s :=
    (List.dropWhile_sublist _).trans h2
  have h4 : List.Sublist ((((s.dropWhile Char.isDigit).dropWhile isSpc).dropWhile
      Char.isDigit).tail.dropWhile Char.isDigit) s :=
    ((List.dropWhile_sublist _).trans (List.tail_sublist _)).trans h3
  have h5 : List.Sublist ((s.dropWhile Char.isDigit).tail.dropWhile Char.isDigit) s :=
    ((List.dropWhile_sublist _).trans (List.tail_sublist _)).trans h1
  simp only [matchNumber] at h
  repeat' split at h
  all_goals try exact Option.noConfusion h
  all_goals
    rw [Option.some_inj] at h
    subst h
    intro c hc
    first
    | exact h4.subset hc
    | exact h5.subset hc
    | exact h1.subset hc

/-- The tail returned by the word-number match is part of the input. -/
theorem matchWordNum_rest_subset (s : Str) (qr : Nat × Str)
    (h : matchWordNum s = some qr) : ∀ c ∈ qr.2, c ∈ s := by
  simp only [matchWordNum] at h
  split at h
  · exact absurd h (by simp)
  · split at h
    · exact absurd h (by simp)
    · rw [Option.some_inj] at h
      subst h
      exact fun c hc => (List.drop_sublist _ _).subset hc

/-- skipParenGroupsAux returns a sublist of its input. -/
theorem skipParenGroupsAux_sublist (fuel : Nat) (r : Str) :
    List.Sublist (skipParenGroupsAux fuel r) r := by
  induction fuel generalizing r with
  | zero => cases r <;> simp [skipParenGroupsAux]
  | succ f ih =>
    cases r with
    | nil => simp [skipParenGroupsAux]
    | cons c rest =>
      rw [skipParenGroupsAux]
      split
      · refine ((ih _).trans ?_).trans (List.sublist_cons_self c rest)
        exact ((List.dropWhile_sublist _).trans (List.tail_sublist _)).trans
          (List.dropWhile_sublist _)
      · exact List.Sublist.refl _

/-- aliasGet returns either the key itself or one of the table's values. -/
theorem aliasGet_mem_or_eq (table : List (Str × Str)) (k : Str) :
    aliasGet table k = k ∨ aliasGet table k ∈ table.map Prod.snd := by
  induction table with
  | nil => exact Or.inl rfl
  | cons kv rest ih =>
    rw [aliasGet]
    split
    · exact Or.inr (by simp)
    · rcases ih with h | h
      · exact Or.inl h
      · refine Or.inr ?_
        rw [List.map_cons]
        exact List.mem_cons_of_mem _ h

/-- Every canonical value of the alias table is lower case. -/
theorem unit_aliases_values_lower :
    ∀ v ∈ UNIT_ALIASES.map Prod.snd, IsLowerStr v := by
  decide

/-- The unit extracted from a lower-case tail is lower case. -/
theorem extractUnit_lower (rest : Str) (hrest : IsLowerStr rest) :
    ∀ u, extractUnit rest = some u → IsLowerStr u := by
  intro u hu
  have hsub : ∀ c ∈ ((((skipParenGroups rest).takeWhile unitChar).reverse.dropWhile
      (fun c => c = '.' || c = ',')).reverse), c ∈ rest := by
    intro c hc
    rw [List.mem_reverse] at hc
    have hc2 := (List.dropWhile_sublist _).subset hc
    rw [List.mem_reverse] at hc2
    have hc3 := (List.takeWhile_sublist _).subset hc2
    rw [skipParenGroups] at hc3
    exact (skipParenGroupsAux_sublist _ _).subset hc3
  simp only [extractUnit] at hu
  split at hu
  · exact absurd hu (by simp)
  · rw [Option.some_inj] at hu
    subst hu
    rcases aliasGet_mem_or_eq UNIT_ALIASES _ with h | h
    · rw [h]
      intro c hc
      exact hrest c (hsub c hc)
    · exact unit_aliases_values_lower _ h

/-- The canonicalized string of parse_amount is lower case. -/
theorem canon_isLower (a : Str) : IsLowerStr (canon a) := by
  intro c hc
  have hc2 := strip_subset _ c hc
  obtain ⟨c0, _, rfl⟩ := List.mem_map.mp hc2
  exact toLower_toLower c0


/-- to_tbsp always produces a value on a present quantity and a unit of the
convertible set. -/
theorem to_tbsp_convertible_isSome (q : ℚ) (u : Str) (h : u ∈ CONVERTIBLE_TO_TBSP) :
    (to_tbsp (some q) u).isSome = true := by
  simp only [CONVERTIBLE_TO_TBSP, List.mem_cons, List.not_mem_nil, or_false] at h
  rcases h with h | h | h <;> subst h <;> rfl

/-- In the convertible branch, the loop appends exactly the tablespoon value
of the entry to convertible_totals. -/
theorem step_conv_branch (acc : Acc) (e : Entry) (hc : convCond e = true) :
    step acc e = ⟨acc.conv ++ [tbVal e], acc.groups, acc.raws⟩ := by
  have h1 : e.qty.isSome = true := (Bool.and_eq_true_iff.mp hc).1
  have h2 : isConvertible e.unit = true := (Bool.and_eq_true_iff.mp hc).2
  obtain ⟨q, hq⟩ := Option.isSome_iff_exists.mp h1
  rcases hu : e.unit with _ | u
  · rw [hu] at h2; simp [isConvertible] at h2
  · have hmem : u ∈ CONVERTIBLE_TO_TBSP := by
      rw [hu] at h2; simpa [isConvertible] using h2
    obtain ⟨tb, htb⟩ := Option.isSome_iff_exists.mp (to_tbsp_convertible_isSome q u hmem)
    have hval : to_tbsp e.qty (e.unit.getD []) = some tb := by
      rw [hq, hu]; simpa using htb
    have htv : tbVal e = tb := by rw [tbVal, hval]; rfl
    rw [step, if_pos ⟨h1, h2⟩, hval, htv]

/-- In the elif branch, the loop only updates same_unit_group. -/
theorem step_group_branch (acc : Acc) (e : Entry) (hg : groupCond e = true) :
    step acc e = ⟨acc.conv, addGroup acc.groups (e.unit.getD []) (e.qty.getD 0), acc.raws⟩ := by
  have h1 : convCond e = false := by
    have := (Bool.and_eq_true_iff.mp hg).1
    simpa using this
  have h2 : e.qty.isSome = true ∧ unitTruthy e.unit = true :=
    Bool.and_eq_true_iff.mp (Bool.and_eq_true_iff.mp hg).2
  have hnc : ¬(e.qty.isSome = true ∧ isConvertible e.unit = true) := by
    intro hcc
    rw [convCond, hcc.1, hcc.2] at h1
    simp at h1
  rw [step, if_neg hnc, if_pos h2]

/-- In the else branch, the loop only appends the raw string to raw_ones. -/
theorem step_raw_branch (acc : Acc) (e : Entry) (hr : rawCond e = true) :
    step acc e = ⟨acc.conv, acc.groups, acc.raws ++ [e.raw]⟩ := by
  have h1 : convCond e = false := by
    have := (Bool.and_eq_true_iff.mp hr).1
    simpa using this
  have h2 : ¬(e.qty.isSome = true ∧ unitTruthy e.unit = true) := by
    have := (Bool.and_eq_true_iff.mp hr).2
    simp only [Bool.not_eq_true'] at this
    rw [Bool.and_eq_false_iff] at this
    rintro ⟨ha, hb⟩
    rcases this with h | h <;> simp [ha, hb] at h
  have hnc : ¬(e.qty.isSome = true ∧ isConvertible e.unit = true) := by
    intro hcc
    rw [convCond, hcc.1, hcc.2] at h1
    simp at h1
  rw [step, if_neg hnc, if_neg h2]

/-- Exactly one of the three branch guards holds for every entry. -/
theorem branch_trichotomy (e : Entry) :
    convCond e = true ∨ groupCond e = true ∨ rawCond e = true := by
  by_cases hc : convCond e = true
  · exact Or.inl hc
  · have hc' : convCond e = false := by simpa using hc
    by_cases hg : (e.qty.isSome && unitTruthy e.unit) = true
    · exact Or.inr (Or.inl (by rw [groupCond, hc']; simpa using hg))
    · have hg' : (e.qty.isSome && unitTruthy e.unit) = false := by simpa using hg
      exact Or.inr (Or.inr (by rw [rawCond, hc', hg']; rfl))

/-- The convertible_totals accumulator collects the tablespoon values of the
convertible entries, in order. -/
theorem foldl_step_conv (entries : List Entry) (acc : Acc) :
    (entries.foldl step acc).conv = acc.conv ++ (entries.filter convCond).map tbVal := by
  induction entries generalizing acc with
  | nil => simp
  | cons e rest ih =>
    rw [List.foldl_cons]
    rcases branch_trichotomy e with hc | hg | hr
    · rw [step_conv_branch acc e hc, ih]
      simp [List.filter_cons, hc]
    · have hc : convCond e = false := by
        have := (Bool.and_eq_true_iff.mp hg).1; simpa using this
      rw [step_group_branch acc e hg, ih]
      simp [List.filter_cons, hc]
    · have hc : convCond e = false := by
        have := (Bool.and_eq_true_iff.mp hr).1; simpa using this
      rw [step_raw_branch acc e hr, ih]
      simp [List.filter_cons, hc]

/-- The same_unit_group accumulator is the addGroup fold over the (unit, qty)
pairs of the elif-branch entries, in order. -/
theorem foldl_step_groups (entries : List Entry) (acc : Acc) :
    (entries.foldl step acc).groups =
      (groupPairs entries).foldl (fun g p => addGroup g p.1 p.2) acc.groups := by
  induction entries generalizing acc with
  | nil => simp [groupPairs]
  | cons e rest ih =>
    rw [List.foldl_cons]
    rcases branch_trichotomy e with hc | hg | hr
    · have hg' : groupCond e = false := by
        rw [groupCond]; simp [hc]
      rw [step_conv_branch acc e hc, ih]
      simp [groupPairs, List.filter_cons, hg']
    · rw [step_group_branch acc e hg, ih]
      simp [groupPairs, List.filter_cons, hg]
    · have hg' : groupCond e = false := by
        have h2 := (Bool.and_eq_true_iff.mp hr).2
        simp only [Bool.not_eq_true'] at h2
        rw [groupCond, Bool.and_eq_false_iff]
        right; exact h2
      rw [step_raw_branch acc e hr, ih]
      simp [groupPairs, List.filter_cons, hg']

/-- The raw_ones accumulator collects exactly the raw strings of the
else-branch entries, in order: the conversion-failure fallback of the first
branch never fires. -/
theorem foldl_step_raws (entries : List Entry) (acc : Acc) :
    (entries.foldl step acc).raws = acc.raws ++ (entries.filter rawCond).map Entry.raw := by
  induction entries generalizing acc with
  | nil => simp
  | cons e rest ih =>
    rw [List.foldl_cons]
    rcases branch_trichotomy e with hc | hg | hr
    · have hr' : rawCond e = false := by rw [rawCond]; simp [hc]
      rw [step_conv_branch acc e hc, ih]
      simp [List.filter_cons, hr']
    · have hr' : rawCond e = false := by
        have h2 := (Bool.and_eq_true_iff.mp hg).2
        rw [rawCond, Bool.and_eq_false_iff]
        right; simpa using h2
      rw [step_group_branch acc e hg, ih]
      simp [List.filter_cons, hr']
    · rw [step_raw_branch acc e hr, ih]
      simp [List.filter_cons, hr]

/-- C1: the claim says parse_amount("1 1/2 cups") yields quantity 3/2 and unit
"cup".  The code recognizes the mixed-number literal, but Fraction("1 1/2")
raises ValueError (an embedded space is not a valid Fraction literal) and the
float fallback fails too, so the quantity comes back absent: the parse returns
(None, "cup", "cups"), diverging from the spec's stated intent and from the
source's own comment that mixed numbers are parsed. -/
theorem c1_mixed_number_unparsed_eval :
    parse_amount (("1 1/2 cups").data) = (none, some (("cup").data), ("cups").data) := by
  decide

/-- C2 counterexample: for the input "To Taste" the trimmed, case-folded form
contains the marker "to taste", but the returned remainder is the case-folded
string "to taste", not the original trimmed string "To Taste". -/
theorem c2_counterexample :
    containsMarker (lowerStr (strip (("To Taste").data))) = true ∧
    (parse_amount (("To Taste").data)).2.2 ≠ strip (("To Taste").data) := by
  decide

/-- C2 (amended): for every input whose canonicalized form (trimmed,
unicode-fraction-normalized, case-folded) is empty or contains one of the four
markers, parse_amount returns quantity absent, unit absent, and remainder
equal to that canonicalized trimmed string — even when the string begins with
a numeric literal. -/
theorem c2_marker_remainder (a : Str)
    (h : canon a = [] ∨ containsMarker (canon a) = true) :
    parse_amount a = (none, none, canon a) := by
  by_cases ha : a = []
  · subst ha
    simp [parse_amount]
    decide
  · rw [parse_amount, if_neg ha, if_pos]
    exact (by simpa using h)

/-- Witness for C2: "2 tbsp, optional" contains a marker and takes the
marker path even though it begins with a numeric literal. -/
theorem c2_marker_remainder_witness :
    (canon (("2 tbsp, optional").data) = [] ∨
      containsMarker (canon (("2 tbsp, optional").data)) = true) ∧
    parse_amount (("2 tbsp, optional").data) =
      (none, none, ("2 tbsp, optional").data) := by
  refine ⟨Or.inr (by decide), ?_⟩
  have h := c2_marker_remainder (("2 tbsp, optional").data) (Or.inr (by decide))
  rw [h]
  decide

/-- Left fold of addition equals the running sum. -/
theorem foldl_add_eq_sum (l : List ℚ) (a : ℚ) :
    l.foldl (fun x y => x + y) a = a + l.sum := by
  induction l generalizing a with
  | nil => simp
  | cons x xs ih => simp [List.foldl_cons, ih, add_assoc]

/-- Joining an empty part list gives the empty string. -/
theorem joinPlus_nil : joinPlus [] = [] := rfl

/-- Joining a single part gives the part itself. -/
theorem joinPlus_singleton (x : Str) : joinPlus [x] = x := by
  simp [joinPlus, List.intercalate]

/-- On a list whose entries all take the convertible branch, consolidation is
the formatted sum of the tablespoon values (empty display for no entries). -/
theorem consolidate_all_convertible (l : List Entry)
    (hc : ∀ e ∈ l, convCond e = true) :
    consolidate_entries l =
      (if l = [] then ([] : Str) else format_tbsp_total ((l.map tbVal).sum)) ∧
    tbspTotalOf l = (l.map tbVal).sum := by
  have hfc : l.filter convCond = l := List.filter_eq_self.mpr hc
  have hgf : l.filter groupCond = [] := by
    rw [List.filter_eq_nil_iff]
    intro e he
    simp [groupCond, hc e he]
  have hrf : l.filter rawCond = [] := by
    rw [List.filter_eq_nil_iff]
    intro e he
    simp [rawCond, hc e he]
  have hconv := foldl_step_conv l ⟨[], [], []⟩
  have hgroups := foldl_step_groups l ⟨[], [], []⟩
  have hraws := foldl_step_raws l ⟨[], [], []⟩
  rw [hfc] at hconv
  simp only [List.nil_append] at hconv
  rw [groupPairs, hgf] at hgroups
  simp only [List.map_nil, List.foldl_nil] at hgroups
  rw [hrf] at hraws
  simp only [List.map_nil, List.nil_append, List.append_nil] at hraws
  constructor
  · simp only [consolidate_entries, hconv, hgroups, hraws]
    by_cases hl : l = []
    · subst hl; rfl
    · have hmap : l.map tbVal ≠ [] := by simpa using hl
      rw [if_neg hl, if_pos hmap, if_neg (by simp : ¬(([] : List Str) ≠ []))]
      simp only [List.map_nil, List.append_nil, List.nil_append]
      rw [joinPlus_singleton, foldl_add_eq_sum, zero_add]
  · rw [tbspTotalOf, hconv, foldl_add_eq_sum, zero_add]

/-- Membership in the deduplicated key list is membership among the keys. -/
theorem mem_dedupKeys (ps : List (Str × ℚ)) (x : Str) :
    x ∈ dedupKeys ps ↔ x ∈ ps.map Prod.fst := by
  induction ps using dedupKeys.induct with
  | case1 => simp [dedupKeys]
  | case2 p rest ih =>
    rw [dedupKeys]
    simp only [List.map_cons, List.mem_cons, ih, List.mem_map, List.mem_filter]
    constructor
    · rintro (h | ⟨q, ⟨hq, hne⟩, rfl⟩)
      · exact Or.inl h
      · exact Or.inr ⟨q, hq, rfl⟩
    · rintro (h | ⟨q, hq, rfl⟩)
      · exact Or.inl h
      · by_cases hx : q.1 = p.1
        · exact Or.inl hx
        · exact Or.inr ⟨q, ⟨hq, by simpa using hx⟩, rfl⟩

/-- The deduplicated key list has no duplicates. -/
theorem nodup_dedupKeys (ps : List (Str × ℚ)) : (dedupKeys ps).Nodup := by
  induction ps using dedupKeys.induct with
  | case1 => simp [dedupKeys]
  | case2 p rest ih =>
    rw [dedupKeys]
    refine List.nodup_cons.mpr ⟨?_, ih⟩
    intro hmem
    rw [mem_dedupKeys] at hmem
    obtain ⟨q, hq, hfst⟩ := List.mem_map.mp hmem
    have := (List.mem_filter.mp hq).2
    simp [hfst] at this

/-- Appending one pair extends the deduplicated key list exactly when its key
is new. -/
theorem dedupKeys_append_single (ps : List (Str × ℚ)) (p : Str × ℚ) :
    dedupKeys (ps ++ [p]) =
      if p.1 ∈ dedupKeys ps then dedupKeys ps else dedupKeys ps ++ [p.1] := by
  induction ps using dedupKeys.induct with
  | case1 =>
    simp [dedupKeys]
  | case2 q rest ih =>
    rw [List.cons_append, dedupKeys, List.filter_append, dedupKeys]
    by_cases hpq : p.1 = q.1
    · have : List.filter (fun r => r.1 ≠ q.1) [p] = [] := by
        simp [List.filter_cons, hpq]
      rw [this, List.append_nil, if_pos (by simp [hpq])]
    · have : List.filter (fun r => r.1 ≠ q.1) [p] = [p] := by
        simp [List.filter_cons, hpq]
      rw [this, ih]
      by_cases hmem : p.1 ∈ dedupKeys (rest.filter (fun r => r.1 ≠ q.1))
      · rw [if_pos hmem, if_pos (List.mem_cons.mpr (Or.inr hmem))]
      · rw [if_neg hmem, if_neg ?_, List.cons_append]
        intro hcc
        rcases List.mem_cons.mp hcc with h | h
        · exact hpq h
        · exact hmem h

/-- Appending one pair adds its quantity to its own unit's sum and leaves the
other units' sums unchanged. -/
theorem sumForUnit_append (u : Str) (ps : List (Str × ℚ)) (p : Str × ℚ) :
    sumForUnit u (ps ++ [p]) =
      sumForUnit u ps + if p.1 = u then p.2 else 0 := by
  rw [sumForUnit, sumForUnit, List.filter_append]
  by_cases hpu : p.1 = u
  · rw [show List.filter (fun q => q.1 = u) [p] = [p] by simp [List.filter_cons, hpu]]
    simp [hpu]
  · rw [show List.filter (fun q => q.1 = u) [p] = [] by simp [List.filter_cons, hpu]]
    simp [hpu]

/-- A unit that appears among no key has sum zero. -/
theorem sumForUnit_eq_zero (u : Str) (ps : List (Str × ℚ))
    (h : u ∉ ps.map Prod.fst) : sumForUnit u ps = 0 := by
  rw [sumForUnit]
  have : ps.filter (fun q => q.1 = u) = [] := by
    rw [List.filter_eq_nil_iff]
    intro q hq
    simp only [decide_eq_true_eq]
    intro hqu
    exact h (List.mem_map.mpr ⟨q, hq, hqu⟩)
  rw [this]
  rfl

/-- addGroup on a fresh key appends it. -/
theorem addGroup_not_mem (g : List (Str × ℚ)) (k : Str) (q : ℚ)
    (hk : k ∉ g.map Prod.fst) :
    addGroup g k q = g ++ [(k, q)] := by
  induction g with
  | nil => rfl
  | cons p rest ih =>
    simp only [List.map_cons, List.mem_cons, not_or] at hk
    rw [addGroup, if_neg (fun hh => hk.1 hh.symm), ih hk.2, List.cons_append]

/-- addGroup on a key of a duplicate-free mapped list updates that key's value
in place. -/
theorem addGroup_map_mem (us : List Str) (f : Str → ℚ) (k : Str) (q : ℚ)
    (hnd : us.Nodup) (hk : k ∈ us) :
    addGroup (us.map fun u => (u, f u)) k q =
      us.map (fun u => (u, f u + if k = u then q else 0)) := by
  induction us with
  | nil => cases hk
  | cons u rest ih =>
    obtain ⟨hu, hrest⟩ := List.nodup_cons.mp hnd
    rcases List.mem_cons.mp hk with h | h
    · subst h
      simp only [List.map_cons, addGroup, eq_self_iff_true, if_true]
      congr 1
      apply List.map_congr_left
      intro w hw
      have hkw : ¬(k = w) := fun hh => hu (by rw [hh]; exact hw)
      rw [if_neg hkw, add_zero]
    · have hne : u ≠ k := fun hh => hu (by rw [hh]; exact h)
      simp only [List.map_cons, addGroup]
      rw [if_neg hne, ih hrest h, if_neg (fun hh => hne hh.symm), add_zero]

/-- The addGroup fold computes, for each distinct unit in encounter order, the
sum over all pairs with that unit. -/
theorem foldl_addGroup_spec (ps : List (Str × ℚ)) :
    ps.foldl (fun g p => addGroup g p.1 p.2) [] =
      (dedupKeys ps).map (fun u => (u, sumForUnit u ps)) := by
  induction ps using List.reverseRecOn with
  | nil => simp [dedupKeys]
  | append_singleton ps p ih =>
    rw [List.foldl_append, List.foldl_cons, List.foldl_nil, ih,
      dedupKeys_append_single]
    by_cases hmem : p.1 ∈ dedupKeys ps
    · rw [if_pos hmem, addGroup_map_mem _ _ _ _ (nodup_dedupKeys ps) hmem]
      apply List.map_congr_left
      intro u hu
      rw [sumForUnit_append]
    · rw [if_neg hmem, addGroup_not_mem, List.map_append]
      · congr 1
        · apply List.map_congr_left
          intro u hu
          have hne : p.1 ≠ u := fun hh => hmem (hh ▸ hu)
          rw [sumForUnit_append, if_neg hne, add_zero]
        · have hz : sumForUnit p.1 ps = 0 :=
            sumForUnit_eq_zero _ _ (fun hh => hmem ((mem_dedupKeys ps p.1).mpr hh))
          simp [sumForUnit_append, hz]
      · intro hh
        apply hmem
        obtain ⟨pr, hpr, hfst⟩ := List.mem_map.mp hh
        obtain ⟨u, hu, rfl⟩ := List.mem_map.mp hpr
        simpa [← hfst] using hu

/-- The accumulator form of the dedup loop equals first-occurrence
deduplication of the strings not seen yet. -/
theorem dedup_foldl_go (rs : List Str) (u : List Str) :
    rs.foldl (fun u r => if r ≠ [] ∧ r ∉ u then u ++ [r] else u) u =
      u ++ specDedup (rs.filter (fun r => decide (r ∉ u))) := by
  induction rs generalizing u with
  | nil => simp [specDedup]
  | cons r rest ih =>
    rw [List.foldl_cons, List.filter_cons]
    by_cases hmem : r ∈ u
    · have hc1 : ¬(r ≠ [] ∧ r ∉ u) := fun hh => hh.2 hmem
      have hc2 : ¬(decide (r ∉ u) = true) := by simp [hmem]
      rw [if_neg hc1, if_neg hc2, ih u]
    · have hc2 : decide (r ∉ u) = true := by simp [hmem]
      rw [if_pos hc2]
      by_cases hr : r = []
      · subst hr
        have hc1 : ¬(([] : Str) ≠ [] ∧ ([] : Str) ∉ u) := fun hh => hh.1 rfl
        rw [if_neg hc1, ih u]
        congr 1
        conv_rhs => rw [specDedup]
        rw [if_pos rfl]
      · have hc1 : (r ≠ [] ∧ r ∉ u) := ⟨hr, hmem⟩
        rw [if_pos hc1, ih (u ++ [r]), List.append_assoc, List.singleton_append]
        congr 1
        rw [specDedup, if_neg hr]
        congr 1
        rw [List.filter_filter]
        congr 1
        apply List.filter_congr
        intro x hx
        rcases Decidable.em (x ∈ u) with hu | hu <;>
          rcases Decidable.em (x = r) with hxr | hxr <;>
            simp [hu, hxr, List.mem_append]

/-- The dedup loop of consolidate_entries equals first-occurrence
deduplication. -/
theorem dedupRaws_eq_specDedup (rs : List Str) : dedupRaws rs = specDedup rs := by
  rw [dedupRaws, dedup_foldl_go rs [], List.nil_append]
  congr 1
  apply List.filter_eq_self.mpr
  intro a _
  simp

/-- First-occurrence deduplication of a list of empty strings is empty. -/
theorem specDedup_all_nil (rs : List Str) (h : ∀ r ∈ rs, r = []) :
    specDedup rs = [] := by
  induction rs with
  | nil => simp [specDedup]
  | cons r rest ih =>
    have hr : r = [] := h r (List.mem_cons_self r rest)
    subst hr
    rw [specDedup, if_pos rfl]
    exact ih (fun x hx => h x (List.mem_cons_of_mem _ hx))

/-- C3: a fraction literal with a zero denominator never escapes as a fault:
whenever the leading-number match of the canonicalized input produces a
fraction literal whose denominator digits read zero, parse_amount returns with
the quantity absent.  (In the source, Fraction("n/0") raises
ZeroDivisionError, float("n/0") raises ValueError, and both are caught by the
try/except chain, leaving qty = None; litToQty models exactly that chain.) -/
theorem c3_zero_denominator_qty_none (a nd dd rest : Str)
    (h : matchNumber (canon a) = some (NumLit.frac nd dd, rest))
    (hz : natOfDigits dd = 0) :
    (parse_amount a).1 = none := by
  by_cases ha : a = []
  · subst ha; rfl
  · rw [parse_amount, if_neg ha]
    by_cases hm : canon a = [] ∨ containsMarker (canon a) = true
    · rw [if_pos hm]
    · rw [if_neg hm, h]
      simp [litToQty, hz]

/-- Witness for C3 at the input "3/0 cups". -/
theorem c3_zero_denominator_qty_none_witness :
    matchNumber (canon (("3/0 cups").data)) =
      some (NumLit.frac (("3").data) (("0").data), (" cups").data) ∧
    natOfDigits (("0").data) = 0 ∧
    (parse_amount (("3/0 cups").data)).1 = none := by
  refine ⟨by decide, by decide,
    c3_zero_denominator_qty_none (("3/0 cups").data) (("3").data) (("0").data)
      ((" cups").data) (by decide) (by decide)⟩

/-- C4: format_tbsp_total applies its thresholds in fixed order: exactly 16
tbsp formats as "1 cup" (not "16 tbsp"), exactly 1 tbsp as "1 tbsp" (not
"3 tsp"), every total strictly below 1 tbsp takes the teaspoon branch
(rendering three times the total with the unit "tsp"), and in particular
1/3 tbsp formats as "1 tsp". -/
theorem c4_threshold_boundaries :
    format_tbsp_total 16 = (("1 cup").data) ∧
    format_tbsp_total 1 = (("1 tbsp").data) ∧
    (∀ t : ℚ, t < 1 →
      format_tbsp_total t = frac_to_mixed_string (t * 3) ++ (" tsp").data) ∧
    format_tbsp_total (1 / 3) = (("1 tsp").data) := by
  refine ⟨by decide, by decide, fun t ht => ?_, by decide⟩
  rw [format_tbsp_total, if_neg (not_le.mpr (by linarith)),
    if_neg (not_le.mpr ht)]

/-- Witness for C4's universal teaspoon clause at the total 1/3. -/
theorem c4_threshold_boundaries_witness :
    ((1 : ℚ) / 3 < 1) ∧
    format_tbsp_total (1 / 3) =
      frac_to_mixed_string ((1 / 3) * 3) ++ (" tsp").data := by
  refine ⟨by decide, c4_threshold_boundaries.2.2.1 (1 / 3) (by decide)⟩

/-- C7: parse_amount("a pinch of salt") returns quantity absent, unit absent
and the unchanged remainder, and consolidating two entries with that same raw
string and absent quantity yields exactly one deduplicated raw term. -/
theorem c7_unparseable_dedup :
    parse_amount (("a pinch of salt").data) = (none, none, ("a pinch of salt").data) ∧
    consolidate_entries
      [⟨("a pinch of salt").data, none, none⟩, ⟨("a pinch of salt").data, none, none⟩] =
      ("a pinch of salt").data := by
  refine ⟨by decide, by decide⟩

/-- C8: two entries with quantity 1 and 2 and the non-convertible unit "large"
are summed against the exact same unit and display as "3 large". -/
theorem c8_same_unit_sum :
    consolidate_entries
      [⟨("1 large egg").data, some 1, some (("large").data)⟩,
       ⟨("2 large eggs").data, some 2, some (("large").data)⟩] =
      ("3 large").data := by
  decide

/-- C9: the conversion-failure fallback inside consolidate_entries is
unreachable: to_tbsp returns a value for every present quantity whose unit is
in the convertible set, and consequently the raw_ones accumulator of the loop
holds exactly the raw strings of the entries routed to the else branch — no
entry with a present quantity and convertible unit ever contributes to it. -/
theorem c9_conversion_fallback_unreachable :
    (∀ (q : ℚ) (u : Str), u ∈ CONVERTIBLE_TO_TBSP → (to_tbsp (some q) u).isSome = true) ∧
    (∀ entries : List Entry,
      (entries.foldl step ⟨[], [], []⟩).raws = (entries.filter rawCond).map Entry.raw) := by
  refine ⟨to_tbsp_convertible_isSome, fun entries => ?_⟩
  simpa using foldl_step_raws entries ⟨[], [], []⟩

/-- Witness for C9 at quantity 2 and unit "cup". -/
theorem c9_conversion_fallback_unreachable_witness :
    (("cup").data ∈ CONVERTIBLE_TO_TBSP) ∧
    (to_tbsp (some 2) (("cup").data)).isSome = true := by
  refine ⟨by decide, c9_conversion_fallback_unreachable.1 2 (("cup").data) (by decide)⟩

/-- C5: consolidation of volume-convertible entries is permutation-invariant:
for any two permutations of a list of entries with present quantities and
convertible units, the accumulated tablespoon total and the formatted display
string coincide. -/
theorem c5_consolidation_perm_invariant (l₁ l₂ : List Entry)
    (hp : l₁.Perm l₂)
    (h : ∀ e ∈ l₁, e.qty.isSome = true ∧ isConvertible e.unit = true) :
    tbspTotalOf l₁ = tbspTotalOf l₂ ∧ consolidate_entries l₁ = consolidate_entries l₂ := by
  have hc₁ : ∀ e ∈ l₁, convCond e = true := fun e he =>
    Bool.and_eq_true_iff.mpr ⟨(h e he).1, (h e he).2⟩
  have hc₂ : ∀ e ∈ l₂, convCond e = true := fun e he =>
    hc₁ e (hp.mem_iff.mpr he)
  obtain ⟨hd₁, ht₁⟩ := consolidate_all_convertible l₁ hc₁
  obtain ⟨hd₂, ht₂⟩ := consolidate_all_convertible l₂ hc₂
  have hsum : (l₁.map tbVal).sum = (l₂.map tbVal).sum := (hp.map tbVal).sum_eq
  have hnil : (l₁ = []) ↔ (l₂ = []) := by
    constructor
    · intro hh; subst hh; exact hp.symm.eq_nil
    · intro hh; subst hh; exact hp.eq_nil
  refine ⟨by rw [ht₁, ht₂, hsum], ?_⟩
  rw [hd₁, hd₂, hsum]
  by_cases hl : l₁ = []
  · rw [if_pos hl, if_pos (hnil.mp hl)]
  · rw [if_neg hl, if_neg (fun hh => hl (hnil.mpr hh))]

/-- Witness for C5: 1 cup + 2 tbsp + 3 tsp in two different orders. -/
theorem c5_consolidation_perm_invariant_witness :
    ([⟨("1 cup").data, some 1, some (("cup").data)⟩,
      ⟨("2 tbsp").data, some 2, some (("tbsp").data)⟩,
      ⟨("3 tsp").data, some 3, some (("tsp").data)⟩] : List Entry).Perm
      [⟨("3 tsp").data, some 3, some (("tsp").data)⟩,
       ⟨("1 cup").data, some 1, some (("cup").data)⟩,
       ⟨("2 tbsp").data, some 2, some (("tbsp").data)⟩] ∧
    tbspTotalOf
        [⟨("1 cup").data, some 1, some (("cup").data)⟩,
         ⟨("2 tbsp").data, some 2, some (("tbsp").data)⟩,
         ⟨("3 tsp").data, some 3, some (("tsp").data)⟩] =
      tbspTotalOf
        [⟨("3 tsp").data, some 3, some (("tsp").data)⟩,
         ⟨("1 cup").data, some 1, some (("cup").data)⟩,
         ⟨("2 tbsp").data, some 2, some (("tbsp").data)⟩] ∧
    consolidate_entries
        [⟨("1 cup").data, some 1, some (("cup").data)⟩,
         ⟨("2 tbsp").data, some 2, some (("tbsp").data)⟩,
         ⟨("3 tsp").data, some 3, some (("tsp").data)⟩] =
      consolidate_entries
        [⟨("3 tsp").data, some 3, some (("tsp").data)⟩,
         ⟨("1 cup").data, some 1, some (("cup").data)⟩,
         ⟨("2 tbsp").data, some 2, some (("tbsp").data)⟩] := by
  refine ⟨by decide, ?_⟩
  have h := c5_consolidation_perm_invariant
    [⟨("1 cup").data, some 1, some (("cup").data)⟩,
     ⟨("2 tbsp").data, some 2, some (("tbsp").data)⟩,
     ⟨("3 tsp").data, some 3, some (("tsp").data)⟩]
    [⟨("3 tsp").data, some 3, some (("tsp").data)⟩,
     ⟨("1 cup").data, some 1, some (("cup").data)⟩,
     ⟨("2 tbsp").data, some 2, some (("tbsp").data)⟩]
    (by decide) (by decide)
  exact h

/-- C6: consolidate_entries assembles its output exactly as specified: one
volume term when a convertible entry exists, then one term per distinct
non-convertible unit in first-encounter order (each the sum over all matching
entries), then one term of deduplicated raw strings, all joined by " + "
(the refinement against the spec-side assembly specAssemble); and when every
entry has an absent quantity and no raw text, the result is the empty
string. -/
theorem c6_assembly_order (entries : List Entry) :
    consolidate_entries entries = specAssemble entries ∧
    ((∀ e ∈ entries, e.qty = none ∧ e.raw = []) → consolidate_entries entries = []) := by
  have hconv := foldl_step_conv entries ⟨[], [], []⟩
  have hgroups := foldl_step_groups entries ⟨[], [], []⟩
  have hraws := foldl_step_raws entries ⟨[], [], []⟩
  simp only [List.nil_append] at hconv hraws
  have hmain : consolidate_entries entries = specAssemble entries := by
    simp only [consolidate_entries, hconv, hgroups, hraws]
    rw [specAssemble]
    congr 1
    congr 1
    · congr 1
      · rw [specVolumePart]
        by_cases hn : entries.filter convCond = []
        · rw [if_neg (by simp [hn]), if_neg (by simp [hn])]
        · rw [if_pos (by simpa using hn), if_pos hn, foldl_add_eq_sum, zero_add,
            specVolumeTotal]
      · rw [foldl_addGroup_spec, specUnitParts, List.map_map]
        rfl
    · rw [specRawPart, dedupRaws_eq_specDedup]
      by_cases hn : (entries.filter rawCond).map Entry.raw = []
      · rw [if_neg (by simp [hn]), if_neg (by simp [hn, specDedup])]
      · rw [if_pos hn]
  refine ⟨hmain, fun hall => ?_⟩
  rw [hmain, specAssemble, specVolumePart, specUnitParts, specRawPart]
  have hfc : entries.filter convCond = [] := by
    rw [List.filter_eq_nil_iff]
    intro e he
    simp [convCond, (hall e he).1]
  have hfg : entries.filter groupCond = [] := by
    rw [List.filter_eq_nil_iff]
    intro e he
    simp [groupCond, convCond, (hall e he).1]
  have hsd : specDedup ((entries.filter rawCond).map Entry.raw) = [] := by
    apply specDedup_all_nil
    intro x hx
    obtain ⟨e, he, rfl⟩ := List.mem_map.mp hx
    exact (hall e (List.mem_filter.mp he).1).2
  rw [hfc, hsd, groupPairs, hfg]
  simp [joinPlus, dedupKeys, List.intercalate]

/-- Witness for C6: a single entry with no quantity, no unit and empty raw
text produces the empty display string, and the refinement holds there. -/
theorem c6_assembly_order_witness :
    consolidate_entries [⟨[], none, none⟩] = specAssemble [⟨[], none, none⟩] ∧
    (∀ e ∈ ([⟨[], none, none⟩] : List Entry), e.qty = none ∧ e.raw = []) ∧
    consolidate_entries [⟨[], none, none⟩] = [] := by
  refine ⟨(c6_assembly_order [⟨[], none, none⟩]).1, by decide,
    (c6_assembly_order [⟨[], none, none⟩]).2 (by decide)⟩


/-- C10: parse_amount case-folds the entire input before unit extraction, so
whenever the returned unit is present it equals its own lower-case form (an
unknown token passes through already lower-cased, never with its original
casing), and the returned remainder is likewise lower case. -/
theorem c10_lowercase_output (a : Str) :
    (∀ u, (parse_amount a).2.1 = some u → lowerStr u = u) ∧
    lowerStr (parse_amount a).2.2 = (parse_amount a).2.2 := by
  have hs : IsLowerStr (canon a) := canon_isLower a
  by_cases ha : a = []
  · subst ha
    constructor
    · intro u hu
      rw [parse_amount, if_pos rfl] at hu
      exact Option.noConfusion hu
    · rw [parse_amount, if_pos rfl]
      rfl
  · rw [parse_amount, if_neg ha]
    generalize hgen : canon a = s
    rw [hgen] at hs
    by_cases hm : s = [] ∨ containsMarker s = true
    · rw [if_pos hm]
      exact ⟨fun u hu => Option.noConfusion hu, lowerStr_eq_of_isLower hs⟩
    · rw [if_neg hm]
      rcases hmn : matchNumber s with _ | lr
      · rcases hwn : matchWordNum s with _ | qr
        · exact ⟨fun u hu => Option.noConfusion hu, lowerStr_eq_of_isLower hs⟩
        · have hrest : IsLowerStr (strip qr.2) := fun c hc =>
            hs c (matchWordNum_rest_subset _ _ hwn c (strip_subset _ c hc))
          exact ⟨fun u hu => lowerStr_eq_of_isLower (extractUnit_lower _ hrest u hu),
            lowerStr_eq_of_isLower hrest⟩
      · have hrest : IsLowerStr (strip lr.2) := fun c hc =>
          hs c (matchNumber_rest_subset _ _ hmn c (strip_subset _ c hc))
        exact ⟨fun u hu => lowerStr_eq_of_isLower (extractUnit_lower _ hrest u hu),
          lowerStr_eq_of_isLower hrest⟩

/-- Witness for C10: "2 BLOBS flour" carries the unknown upper-case unit
token BLOBS, which comes back lower-cased as "blobs". -/
theorem c10_lowercase_output_witness :
    (parse_amount (("2 BLOBS flour").data)).2.1 = some (("blobs").data) ∧
    lowerStr (("blobs").data) = ("blobs").data ∧
    lowerStr (parse_amount (("2 BLOBS flour").data)).2.2 =
      (parse_amount (("2 BLOBS flour").data)).2.2 := by
  refine ⟨by decide,
    (c10_lowercase_output (("2 BLOBS flour").data)).1 (("blobs").data) (by decide),
    (c10_lowercase_output (("2 BLOBS flour").data)).2⟩


end Paprika
